import Mathlib

/-!
# Verification of `ww` (whois watcher), core logic

Shallow embedding of `src/ww/ww.go`: the field-line parser `split` (built on
the regular expression `^((?:[A-Z][A-Za-z]+ ?)+):(.*)$`), the record differ
inlined in `main`, the report accumulator `report`, and the mail guard
`sendReport`.  Raw bytes are modelled as `List Char` (the whois data the
program handles is ASCII text; the regex character classes are ASCII ranges).
Go's `map[string]map[string]bool` is modelled as an association list with
distinct keys, each key mapped to a duplicate-free list of values; Go map
iteration order is arbitrary, the association list fixes first-insertion
order, which is one of the admissible orders.
-/

namespace WW

/-! ## Character classes of the regular expression -/

/-- Class `[A-Z]` of `fieldRe` (an ASCII range in Go's regexp). -/
def isUpper (c : Char) : Bool := 'A' ≤ c && c ≤ 'Z'

/-- The lowercase half of `[A-Za-z]`. -/
def isLower (c : Char) : Bool := 'a' ≤ c && c ≤ 'z'

/-- Class `[A-Za-z]` of `fieldRe`. -/
def isLetter (c : Char) : Bool := isUpper c || isLower c

/-- The whitespace set of Go's `bytes.TrimSpace` (`unicode.IsSpace`),
restricted to Latin-1: `\t \n \v \f \r` space, NEL and NBSP.  Code points
above Latin-1 with the White_Space property do not occur in whois text and
are omitted. -/
def goIsSpace (c : Char) : Bool :=
  c = ' ' || c = '\t' || c = '\n' || c = '\x0b' || c = '\x0c' || c = '\r' ||
  c = '\x85' || c = '\xa0'

/-! ## The label language `(?:[A-Z][A-Za-z]+ ?)+`

`labelRun` is a DFA for the label sub-expression of
`fieldRe = ^((?:[A-Z][A-Za-z]+ ?)+):(.*)$`:
* `q0`: start of the label, expecting the uppercase head of the first word;
* `q1`: read the uppercase head of a word, one more letter is required;
* `q2`: read at least two characters of the current word (accepting);
* `q3`: read the single optional space after a word (accepting).
-/

inductive LSt : Type
  | q0 | q1 | q2 | q3
deriving DecidableEq

/-- Run of the label DFA. -/
def labelRun : LSt → List Char → Bool
  | s, [] => s = LSt.q2 || s = LSt.q3
  | s, c :: cs =>
    match s with
    | LSt.q0 => if isUpper c then labelRun LSt.q1 cs else false
    | LSt.q1 => if isLetter c then labelRun LSt.q2 cs else false
    | LSt.q2 =>
      if isLetter c then labelRun LSt.q2 cs
      else if c = ' ' then labelRun LSt.q3 cs else false
    | LSt.q3 => if isUpper c then labelRun LSt.q1 cs else false

/-- Whether a string is in the language of `(?:[A-Z][A-Za-z]+ ?)+`. -/
def labelMatch (l : List Char) : Bool := labelRun LSt.q0 l

/-- Declarative form of the label language actually accepted by `fieldRe`:
one or more words, each an uppercase letter followed by at least one more
letter (of either case), consecutive words separated by a single space, with
optionally a single trailing space.  (Adjacent words of the regex written
without a separating space merge into a single word, so this canonical form
describes the same language.) -/
inductive CodeLabel : List Char → Prop
  | one (c : Char) (cs : List Char) :
      isUpper c → cs ≠ [] → (∀ x ∈ cs, isLetter x) → CodeLabel (c :: cs)
  | oneSp (c : Char) (cs : List Char) :
      isUpper c → cs ≠ [] → (∀ x ∈ cs, isLetter x) →
      CodeLabel (c :: (cs ++ [' ']))
  | more (c : Char) (cs rest : List Char) :
      isUpper c → cs ≠ [] → (∀ x ∈ cs, isLetter x) → CodeLabel rest →
      CodeLabel (c :: (cs ++ ' ' :: rest))

/-- The label language as the specification describes it: one or more
capitalized words, each an uppercase letter optionally followed by lowercase
letters, words separated by single spaces, the colon immediately after the
last word. -/
inductive SpecLabel : List Char → Prop
  | one (c : Char) (cs : List Char) :
      isUpper c → (∀ x ∈ cs, isLower x) → SpecLabel (c :: cs)
  | more (c : Char) (cs rest : List Char) :
      isUpper c → (∀ x ∈ cs, isLower x) → SpecLabel rest →
      SpecLabel (c :: (cs ++ ' ' :: rest))

/-! ## Matching one line against `fieldRe` -/

/-- Split a line at its first colon: `some (before, after)`, or `none` when
the line has no colon.  Since a label contains only letters and spaces, a
match of the anchored `fieldRe` necessarily puts the literal `:` at the first
colon of the line, group 1 before it and group 2 (`.*`) after it. -/
def splitFirstColon : List Char → Option (List Char × List Char)
  | [] => none
  | c :: cs =>
    if c = ':' then some ([], cs)
    else
      match splitFirstColon cs with
      | none => none
      | some (p, r) => some (c :: p, r)

/-- Go's `bytes.TrimSpace` on a line fragment. -/
def goTrimSpace (l : List Char) : List Char :=
  ((l.dropWhile goIsSpace).reverse.dropWhile goIsSpace).reverse

/-- Matching `fieldRe.FindSubmatch` on one line followed by the extraction done in
`split`: `some (m[1], TrimSpace m[2])` when the line matches, else `none`. -/
def lineField (l : List Char) : Option (List Char × List Char) :=
  match splitFirstColon l with
  | none => none
  | some (p, r) => if labelMatch p then some (p, goTrimSpace r) else none

/-! ## Records -/

/-- Model of `map[string]map[string]bool`: field name to set of values.  Keys of the
outer list are distinct (`RecordWF`), inner lists are duplicate-free. -/
abbrev Record := List (String × List String)

/-- Lookup of a key, `got[k]` / `fields[k]`. -/
def lookupRec : Record → String → Option (List String)
  | [], _ => none
  | (k', vs) :: rest, k => if k' = k then some vs else lookupRec rest k

/-- Assignment `fields[k][v] = true` (creating `fields[k]` when missing), as in the body
of `split`'s loop.  Inserting an already-present value is a no-op (Go map
set semantics). -/
def insertVal : Record → String → String → Record
  | [], k, v => [(k, [v])]
  | (k', vs) :: rest, k, v =>
    if k' = k then (k', if v ∈ vs then vs else vs ++ [v]) :: rest
    else (k', vs) :: insertVal rest k v

/-- Well-formedness: distinct field names, as for a Go map. -/
def RecordWF (r : Record) : Prop := (r.map Prod.fst).Nodup

instance (r : Record) : Decidable (RecordWF r) := List.nodupDecidable _

/-- Model of `bytes.Split(b, []byte("\n"))`. -/
def splitLines : List Char → List (List Char)
  | [] => [[]]
  | c :: cs =>
    if c = '\n' then [] :: splitLines cs
    else
      match splitLines cs with
      | [] => [[c]]
      | p :: ps => (c :: p) :: ps

/-- The loop body of `split` over a list of lines, starting from an
accumulated record. -/
def splitFold (fields : Record) : List (List Char) → Record
  | [] => fields
  | l :: ls =>
    match lineField l with
    | none => splitFold fields ls
    | some (k, v) => splitFold (insertVal fields (String.mk k) (String.mk v)) ls

/-- Function `split` of `ww.go`: parse raw whois output into a record. -/
def split (b : List Char) : Record := splitFold [] (splitLines b)

/-! ## The differ (inlined in `main`) and reporting -/

/-- One report line, by the `report(...)` call that produces it. -/
inductive Discrepancy : Type
  | countMismatch (nExpected nGot : Nat)
  | fieldMissing (k : String)
  | valueMissing (k v : String)
  | extraValue (k v : String)
  | extraField (k joined : String)
deriving DecidableEq

/-- Function `keys` of `ww.go`: flatten a value set into a space-separated string
(each value followed by a space). -/
def keysJoin (vs : List String) : String :=
  vs.foldl (fun s k => s ++ k ++ " ") ""

/-- The `else` branch body of the per-field loop plus the missing-field
branch: discrepancies for one expected field `(k, m0)` against `got`. -/
def diffFieldPart (got : Record) (k : String) (m0 : List String) :
    List Discrepancy :=
  match lookupRec got k with
  | none => [Discrepancy.fieldMissing k]
  | some m1 =>
    (m0.filter (fun v => decide (v ∉ m1))).map (Discrepancy.valueMissing k) ++
    (m1.filter (fun v => decide (v ∉ m0))).map (Discrepancy.extraValue k)

/-- The first loop of the comparison in `main`: over expected fields. -/
def diffFields (fields got : Record) : List Discrepancy :=
  fields.foldr (fun p acc => diffFieldPart got p.1 p.2 ++ acc) []

/-- The second loop of the comparison in `main`: fields of `got` absent
from `fields`. -/
def diffExtra (fields got : Record) : List Discrepancy :=
  got.foldr
    (fun p acc =>
      if (lookupRec fields p.1).isNone then
        Discrepancy.extraField p.1 (keysJoin p.2) :: acc
      else acc)
    []

/-- The whole comparison performed by `main` between the parsed expected
record and the parsed whois response: field-count check, per-expected-field
loop, extra-field loop, in program order. -/
def diff (fields got : Record) : List Discrepancy :=
  (if fields.length ≠ got.length then
    [Discrepancy.countMismatch fields.length got.length]
  else []) ++ diffFields fields got ++ diffExtra fields got

/-- The text of the `report` format string for each discrepancy. -/
def Discrepancy.text : Discrepancy → String
  | Discrepancy.countMismatch a b =>
      "Field count different: " ++ toString a ++ " " ++ toString b
  | Discrepancy.fieldMissing k => "Field " ++ k ++ " required but missing"
  | Discrepancy.valueMissing k v =>
      "Field " ++ k ++ " expected value [" ++ v ++ "] missing"
  | Discrepancy.extraValue k v => "Field " ++ k ++ " extra value [" ++ v ++ "]"
  | Discrepancy.extraField k joined =>
      "Extra field " ++ k ++ " with value " ++ joined

/-- The accumulated `*msg`: each `report` call appends its line and a
newline. -/
def reportBody (ds : List Discrepancy) : String :=
  ds.foldl (fun m d => m ++ d.text ++ "\n") ""

/-- The mail header composed by `sendReport`. -/
def mailHeader (sender rcpts date zone : String) : String :=
  "From: " ++ sender ++ "\nTo: " ++ rcpts ++ "\nDate: " ++ date ++
  "\nSubject: WARNING! Change in " ++ zone ++ " whois record\n\n"

/-- Function `sendReport`: `none` when the body is empty (no mail), otherwise the one
message handed to `smtp.SendMail`. -/
def sendReport (sender zone msg : String) (rcpt : List String) (date : String) :
    Option String :=
  if msg = "" then none
  else some (mailHeader sender (String.intercalate (", ") rcpt) date zone ++ msg)

/-- Number of `smtp.SendMail` invocations `sendReport` performs for a given
body: the single call site is guarded by the emptiness check. -/
def sendCount (msg : String) : Nat := if msg = "" then 0 else 1

/-! ## Claim C1, as stated by the specification -/

/-- Claim C1 at one line: `parse` treats it as a field line exactly when it
is a spec-language label, a colon, and the rest as value; name verbatim,
value trimmed. -/
def claimC1At (l : List Char) : Prop :=
  ∀ k v, lineField l = some (k, v) ↔
    ∃ r, l = k ++ ':' :: r ∧ SpecLabel k ∧ v = goTrimSpace r

end WW

namespace WW

/-! ## The label DFA recognizes exactly `CodeLabel` -/

theorem labelRun_q2_letters (ls t : List Char)
    (h : ∀ x ∈ ls, isLetter x = true) :
    labelRun LSt.q2 (ls ++ t) = labelRun LSt.q2 t := by
  induction ls with
  | nil => rfl
  | cons c cs ih =>
    have hc : isLetter c = true := h c (by simp)
    simp only [List.cons_append, labelRun, hc, if_true]
    exact ih fun x hx => h x (by simp [hx])

theorem labelRun_q3_eq_q0 (l : List Char) (h : l ≠ []) :
    labelRun LSt.q3 l = labelRun LSt.q0 l := by
  cases l with
  | nil => exact absurd rfl h
  | cons c cs => simp only [labelRun]

theorem CodeLabel.ne_nil {l : List Char} (h : CodeLabel l) : l ≠ [] := by
  cases h <;> simp

theorem labelMatch_of_codeLabel {l : List Char} (h : CodeLabel l) :
    labelMatch l = true := by
  induction h with
  | one c cs hu hne hls =>
    cases cs with
    | nil => exact absurd rfl hne
    | cons d ds =>
      have hd : isLetter d = true := hls d (by simp)
      have hds : ∀ x ∈ ds, isLetter x = true := fun x hx => hls x (by simp [hx])
      show labelRun LSt.q0 (c :: d :: ds) = true
      simp only [labelRun, hu, hd, if_true]
      rw [show ds = ds ++ [] by simp, labelRun_q2_letters ds [] hds]
      rfl
  | oneSp c cs hu hne hls =>
    cases cs with
    | nil => exact absurd rfl hne
    | cons d ds =>
      have hd : isLetter d = true := hls d (by simp)
      have hds : ∀ x ∈ ds, isLetter x = true := fun x hx => hls x (by simp [hx])
      show labelRun LSt.q0 (c :: (d :: ds ++ [' '])) = true
      simp only [labelRun, hu, hd, if_true, List.cons_append]
      show labelRun LSt.q2 (ds ++ [' ']) = true
      rw [labelRun_q2_letters ds [' '] hds]
      rfl
  | more c cs rest hu hne hls hrest ih =>
    cases cs with
    | nil => exact absurd rfl hne
    | cons d ds =>
      have hd : isLetter d = true := hls d (by simp)
      have hds : ∀ x ∈ ds, isLetter x = true := fun x hx => hls x (by simp [hx])
      show labelRun LSt.q0 (c :: (d :: ds ++ ' ' :: rest)) = true
      simp only [labelRun, hu, hd, if_true, List.cons_append]
      show labelRun LSt.q2 (ds ++ ' ' :: rest) = true
      rw [labelRun_q2_letters ds (' ' :: rest) hds]
      have : labelRun LSt.q2 (' ' :: rest) = labelRun LSt.q3 rest := by
        simp [labelRun, isLetter, isUpper, isLower]
      rw [this, labelRun_q3_eq_q0 rest hrest.ne_nil]
      exact ih

theorem labelRun_q2_decomp :
    ∀ cs : List Char, labelRun LSt.q2 cs = true →
      ∃ ls t, cs = ls ++ t ∧ (∀ x ∈ ls, isLetter x = true) ∧
        (t = [] ∨ ∃ r, t = ' ' :: r ∧ labelRun LSt.q3 r = true) := by
  intro cs
  induction cs with
  | nil => intro _; exact ⟨[], [], by simp, by simp, Or.inl rfl⟩
  | cons c cs' ih =>
    intro h
    by_cases hc : isLetter c = true
    · simp only [labelRun, hc, if_true] at h
      obtain ⟨ls, t, heq, hls, ht⟩ := ih h
      exact ⟨c :: ls, t, by simp [heq], by
        intro x hx
        rcases List.mem_cons.mp hx with hx | hx
        · exact hx ▸ hc
        · exact hls x hx, ht⟩
    · by_cases hsp : c = ' '
      · subst hsp
        simp only [labelRun, hc, if_false, if_true] at h
        exact ⟨[], ' ' :: cs', by simp, by simp, Or.inr ⟨cs', rfl, h⟩⟩
      · simp only [labelRun, hc, hsp, if_false] at h
        exact absurd h (by simp)

theorem codeLabel_of_labelRun_q0 :
    ∀ n (l : List Char), l.length ≤ n → labelRun LSt.q0 l = true →
      CodeLabel l := by
  intro n
  induction n with
  | zero =>
    intro l hl h
    cases l with
    | nil => exact absurd h (by simp [labelRun])
    | cons c cs => simp at hl
  | succ n ih =>
    intro l hl h
    cases l with
    | nil => exact absurd h (by simp [labelRun])
    | cons c cs =>
      by_cases hu : isUpper c = true
      · simp only [labelRun, hu, if_true] at h
        cases cs with
        | nil => exact absurd h (by simp [labelRun])
        | cons d ds =>
          by_cases hd : isLetter d = true
          · simp only [labelRun, hd, if_true] at h
            obtain ⟨ls, t, heq, hls, ht⟩ := labelRun_q2_decomp ds h
            have hdls : ∀ x ∈ d :: ls, isLetter x = true := fun x hx => by
              rcases List.mem_cons.mp hx with rfl | hx
              · exact hd
              · exact hls x hx
            rcases ht with rfl | ⟨r, rfl, hr⟩
            · simp only [List.append_nil] at heq
              rw [heq]
              exact CodeLabel.one c (d :: ls) hu (by simp) hdls
            · cases r with
              | nil =>
                rw [heq]
                exact CodeLabel.oneSp c (d :: ls) hu (by simp) hdls
              | cons e es =>
                rw [labelRun_q3_eq_q0 (e :: es) (by simp)] at hr
                have hlen : (e :: es).length ≤ n := by
                  rw [heq] at hl
                  simp at hl ⊢
                  omega
                have hcl := ih (e :: es) hlen hr
                rw [heq]
                exact CodeLabel.more c (d :: ls) (e :: es) hu (by simp)
                  hdls hcl
          · simp only [labelRun, hd, if_false] at h
            exact absurd h (by simp)
      · simp only [labelRun, hu, if_false] at h
        exact absurd h (by simp)

/-- The regular expression's label group matches a string exactly when it is
a `CodeLabel`. -/
theorem labelMatch_iff_codeLabel (l : List Char) :
    labelMatch l = true ↔ CodeLabel l :=
  ⟨fun h => codeLabel_of_labelRun_q0 l.length l le_rfl h,
   labelMatch_of_codeLabel⟩

end WW

namespace WW

/-! ## Characterizing a `fieldRe` match of a whole line -/

theorem splitFirstColon_some {l p r : List Char}
    (h : splitFirstColon l = some (p, r)) : l = p ++ ':' :: r ∧ ':' ∉ p := by
  induction l generalizing p r with
  | nil => exact absurd h (by simp [splitFirstColon])
  | cons c cs ih =>
    by_cases hc : c = ':'
    · subst hc
      simp only [splitFirstColon, if_true] at h
      obtain ⟨rfl, rfl⟩ : p = [] ∧ r = cs := by
        cases h
        exact ⟨rfl, rfl⟩
      simp
    · simp only [splitFirstColon, hc, if_false] at h
      cases hrec : splitFirstColon cs with
      | none => rw [hrec] at h; exact absurd h (by simp)
      | some pr =>
        obtain ⟨p', r'⟩ := pr
        rw [hrec] at h
        simp only [Option.some.injEq, Prod.mk.injEq] at h
        obtain ⟨rfl, rfl⟩ : p = c :: p' ∧ r = r' := ⟨h.1.symm, h.2.symm⟩
        obtain ⟨heq, hnotin⟩ := ih hrec
        constructor
        · simp [heq]
        · intro hmem
          rcases List.mem_cons.mp hmem with h1 | h1
          · exact hc h1.symm
          · exact hnotin h1

theorem splitFirstColon_append {p r : List Char} (hp : ':' ∉ p) :
    splitFirstColon (p ++ ':' :: r) = some (p, r) := by
  induction p with
  | nil => simp [splitFirstColon]
  | cons c cs ih =>
    have hc : ¬ c = ':' := fun h => hp (by simp [h])
    simp only [List.cons_append, splitFirstColon, hc, if_false, List.append_eq]
    rw [ih fun h => hp (by simp [h])]

theorem CodeLabel.no_colon {p : List Char} (h : CodeLabel p) : ':' ∉ p := by
  induction h with
  | one c cs hu _ hls =>
    intro hmem
    rcases List.mem_cons.mp hmem with rfl | hmem
    · exact absurd hu (by decide)
    · exact absurd (hls _ hmem) (by decide)
  | oneSp c cs hu _ hls =>
    intro hmem
    rcases List.mem_cons.mp hmem with rfl | hmem
    · exact absurd hu (by decide)
    · rcases List.mem_append.mp hmem with hmem | hmem
      · exact absurd (hls _ hmem) (by decide)
      · simp at hmem
  | more c cs rest hu _ hls _ ih =>
    intro hmem
    rcases List.mem_cons.mp hmem with rfl | hmem
    · exact absurd hu (by decide)
    · rcases List.mem_append.mp hmem with hmem | hmem
      · exact absurd (hls _ hmem) (by decide)
      · rcases List.mem_cons.mp hmem with h1 | h1
        · exact absurd h1 (by decide)
        · exact ih h1

/-- What a `fieldRe` match of a line is: the part before the first colon is
a `CodeLabel`, the field name is that part verbatim, the value is the rest
of the line trimmed. -/
theorem lineField_eq_some_iff (l k v : List Char) :
    lineField l = some (k, v) ↔
      ∃ r, l = k ++ ':' :: r ∧ CodeLabel k ∧ v = goTrimSpace r := by
  constructor
  · intro h
    unfold lineField at h
    cases hsp : splitFirstColon l with
    | none => rw [hsp] at h; exact absurd h (by simp)
    | some pr =>
      obtain ⟨p, r⟩ := pr
      rw [hsp] at h
      by_cases hm : labelMatch p = true
      · simp only [hm, if_true, Option.some.injEq, Prod.mk.injEq] at h
        obtain ⟨rfl, rfl⟩ : k = p ∧ v = goTrimSpace r := ⟨h.1.symm, h.2.symm⟩
        obtain ⟨heq, _⟩ := splitFirstColon_some hsp
        exact ⟨r, heq, (labelMatch_iff_codeLabel k).mp hm, rfl⟩
      · simp only [hm, if_false] at h
        exact absurd h (by simp)
  · rintro ⟨r, rfl, hcl, rfl⟩
    unfold lineField
    rw [splitFirstColon_append hcl.no_colon]
    simp [(labelMatch_iff_codeLabel k).mpr hcl]

/-- C1 — counterexample.  The line `"A: x"` is a field line under the
specification's pattern (a single capitalized word `A`, uppercase letter
followed by zero lowercase letters), but `fieldRe` requires every word of
the label to have at least two letters, so `split` does not treat it as a
field line. -/
theorem C1_counterexample : ¬ claimC1At ('A' :: ':' :: ' ' :: 'x' :: []) := by
  intro h
  have h2 := (h ['A'] ['x']).mpr
    ⟨[' ', 'x'], rfl, SpecLabel.one 'A' [] (by decide) (by simp), by decide⟩
  rw [show lineField ('A' :: ':' :: ' ' :: 'x' :: []) = none from rfl] at h2
  exact Option.noConfusion h2

/-- C1 — amended.  `split` treats a line as a field line exactly when it is
a label, a colon, and the rest of the line as the value, where the label is
one or more words, each an uppercase letter followed by at least one more
letter of either case (not exactly zero-or-more lowercase letters, as the
specification says), words separated by single spaces, and optionally one
trailing space before the colon; the label (a possible trailing space
included) is the field name verbatim and the trimmed rest is the value. -/
theorem C1_amended (l k v : List Char) :
    lineField l = some (k, v) ↔
      ∃ r, l = k ++ ':' :: r ∧ CodeLabel k ∧ v = goTrimSpace r :=
  lineField_eq_some_iff l k v

end WW

namespace WW

/-! ## Record lookup and the shape of the differ's output -/

theorem lookupRec_mem {r : Record} {k : String} {vs : List String}
    (h : lookupRec r k = some vs) : (k, vs) ∈ r := by
  induction r with
  | nil => exact absurd h (by simp [lookupRec])
  | cons p rest ih =>
    obtain ⟨k', vs'⟩ := p
    by_cases hk : k' = k
    · subst hk
      simp only [lookupRec, if_true] at h
      cases h
      simp
    · simp only [lookupRec, hk, if_false] at h
      exact List.mem_cons_of_mem _ (ih h)

theorem mem_lookupRec {r : Record} {k : String} {vs : List String}
    (hwf : RecordWF r) (h : (k, vs) ∈ r) : lookupRec r k = some vs := by
  induction r with
  | nil => simp at h
  | cons p rest ih =>
    obtain ⟨k', vs'⟩ := p
    rcases List.mem_cons.mp h with heq | hmem
    · cases heq
      simp [lookupRec]
    · have hk : k' ≠ k := by
        intro hk
        subst hk
        have : k' ∈ rest.map Prod.fst :=
          List.mem_map.mpr ⟨(k', vs), hmem, rfl⟩
        exact (List.nodup_cons.mp hwf).1 this
      simp only [lookupRec, hk, if_false]
      exact ih (List.nodup_cons.mp hwf).2 hmem

theorem lookupRec_eq_none_iff {r : Record} {k : String} :
    lookupRec r k = none ↔ ∀ vs, (k, vs) ∉ r := by
  constructor
  · intro h vs hmem
    induction r with
    | nil => simp at hmem
    | cons p rest ih =>
      obtain ⟨k', vs'⟩ := p
      by_cases hk : k' = k
      · subst hk; simp [lookupRec] at h
      · simp only [lookupRec, hk, if_false] at h
        rcases List.mem_cons.mp hmem with heq | hmem'
        · exact hk (congrArg Prod.fst heq).symm
        · exact ih h hmem'
  · intro h
    cases hl : lookupRec r k with
    | none => rfl
    | some vs => exact absurd (lookupRec_mem hl) (h vs)

theorem diffFields_eq (fields got : Record) :
    diffFields fields got =
      (fields.map fun p => diffFieldPart got p.1 p.2).flatten := by
  induction fields with
  | nil => rfl
  | cons p rest ih => simp [diffFields, List.foldr] at ih ⊢; rw [ih]

theorem mem_diffFields {fields got : Record} {d : Discrepancy} :
    d ∈ diffFields fields got ↔
      ∃ k m0, (k, m0) ∈ fields ∧ d ∈ diffFieldPart got k m0 := by
  rw [diffFields_eq, List.mem_flatten]
  constructor
  · rintro ⟨l, hl, hd⟩
    obtain ⟨p, hp, rfl⟩ := List.mem_map.mp hl
    exact ⟨p.1, p.2, by simpa using hp, hd⟩
  · rintro ⟨k, m0, hmem, hd⟩
    exact ⟨diffFieldPart got k m0,
      List.mem_map.mpr ⟨(k, m0), hmem, rfl⟩, hd⟩

theorem diffExtra_eq (fields got : Record) :
    diffExtra fields got =
      (got.filter fun p => (lookupRec fields p.1).isNone).map
        fun p => Discrepancy.extraField p.1 (keysJoin p.2) := by
  induction got with
  | nil => rfl
  | cons p rest ih =>
    by_cases hp : (lookupRec fields p.1).isNone
    · simp [diffExtra, List.filter_cons, hp] at ih ⊢
      rw [ih, if_pos (Option.isNone_iff_eq_none.mp hp)]
    · simp [diffExtra, List.filter_cons, hp] at ih ⊢
      rw [ih, if_neg fun h => hp (Option.isNone_iff_eq_none.mpr h)]

theorem mem_diffExtra {fields got : Record} {d : Discrepancy} :
    d ∈ diffExtra fields got ↔
      ∃ k m1, (k, m1) ∈ got ∧ lookupRec fields k = none ∧
        d = Discrepancy.extraField k (keysJoin m1) := by
  rw [diffExtra_eq, List.mem_map]
  constructor
  · rintro ⟨p, hp, rfl⟩
    obtain ⟨hmem, hnone⟩ := List.mem_filter.mp hp
    exact ⟨p.1, p.2, by simpa using hmem,
      Option.isNone_iff_eq_none.mp (by simpa using hnone), rfl⟩
  · rintro ⟨k, m1, hmem, hnone, rfl⟩
    exact ⟨(k, m1), List.mem_filter.mpr ⟨hmem, by simp [hnone]⟩, rfl⟩

theorem mem_diff {fields got : Record} {d : Discrepancy} :
    d ∈ diff fields got ↔
      (fields.length ≠ got.length ∧
        d = Discrepancy.countMismatch fields.length got.length) ∨
      d ∈ diffFields fields got ∨ d ∈ diffExtra fields got := by
  unfold diff
  by_cases h : fields.length ≠ got.length <;> simp [h]

end WW

namespace WW

/-! ## What each kind of discrepancy in the output means -/

theorem mem_diffFieldPart_fieldMissing {got : Record} {k k' : String}
    {m0 : List String} :
    Discrepancy.fieldMissing k' ∈ diffFieldPart got k m0 ↔
      k' = k ∧ lookupRec got k = none := by
  unfold diffFieldPart
  cases h : lookupRec got k with
  | none => simp
  | some m1 =>
    simp only [List.mem_append, List.mem_map, List.mem_filter]
    constructor
    · rintro (⟨v, _, hv⟩ | ⟨v, _, hv⟩) <;> exact absurd hv (by simp)
    · rintro ⟨_, hnone⟩
      exact absurd hnone (by simp)

theorem mem_diffFieldPart_valueMissing {got : Record} {k k' v : String}
    {m0 : List String} :
    Discrepancy.valueMissing k' v ∈ diffFieldPart got k m0 ↔
      k' = k ∧ ∃ m1, lookupRec got k = some m1 ∧ v ∈ m0 ∧ v ∉ m1 := by
  unfold diffFieldPart
  cases h : lookupRec got k with
  | none => simp
  | some m1 =>
    simp only [List.mem_append, List.mem_map, List.mem_filter]
    constructor
    · rintro (⟨w, hw, hv⟩ | ⟨w, hw, hv⟩)
      · obtain ⟨rfl, rfl⟩ : k' = k ∧ v = w := by
          cases hv; exact ⟨rfl, rfl⟩
        obtain ⟨hmem, hnot⟩ := hw
        exact ⟨rfl, m1, rfl, hmem, by simpa using hnot⟩
      · exact absurd hv (by simp)
    · rintro ⟨rfl, m1', hm1, hv, hnot⟩
      obtain rfl : m1' = m1 := by cases hm1; rfl
      exact Or.inl ⟨v, ⟨hv, by simpa using hnot⟩, rfl⟩

theorem mem_diffFieldPart_extraValue {got : Record} {k k' v : String}
    {m0 : List String} :
    Discrepancy.extraValue k' v ∈ diffFieldPart got k m0 ↔
      k' = k ∧ ∃ m1, lookupRec got k = some m1 ∧ v ∈ m1 ∧ v ∉ m0 := by
  unfold diffFieldPart
  cases h : lookupRec got k with
  | none => simp
  | some m1 =>
    simp only [List.mem_append, List.mem_map, List.mem_filter]
    constructor
    · rintro (⟨w, hw, hv⟩ | ⟨w, hw, hv⟩)
      · exact absurd hv (by simp)
      · obtain ⟨rfl, rfl⟩ : k' = k ∧ v = w := by
          cases hv; exact ⟨rfl, rfl⟩
        obtain ⟨hmem, hnot⟩ := hw
        exact ⟨rfl, m1, rfl, hmem, by simpa using hnot⟩
    · rintro ⟨rfl, m1', hm1, hv, hnot⟩
      obtain rfl : m1' = m1 := by cases hm1; rfl
      exact Or.inr ⟨v, ⟨hv, by simpa using hnot⟩, rfl⟩

theorem not_mem_diffFieldPart_countMismatch {got : Record} {k : String}
    {m0 : List String} {a b : Nat} :
    Discrepancy.countMismatch a b ∉ diffFieldPart got k m0 := by
  unfold diffFieldPart
  cases lookupRec got k with
  | none => simp
  | some m1 =>
    simp only [List.mem_append, List.mem_map]
    rintro (⟨v, _, hv⟩ | ⟨v, _, hv⟩) <;> exact absurd hv (by simp)

theorem not_mem_diffFieldPart_extraField {got : Record} {k k' s : String}
    {m0 : List String} :
    Discrepancy.extraField k' s ∉ diffFieldPart got k m0 := by
  unfold diffFieldPart
  cases lookupRec got k with
  | none => simp
  | some m1 =>
    simp only [List.mem_append, List.mem_map]
    rintro (⟨v, _, hv⟩ | ⟨v, _, hv⟩) <;> exact absurd hv (by simp)

/-- A `countMismatch` line is in the report exactly when the two records
have a different number of distinct field names, and it carries exactly
those two counts. -/
theorem mem_diff_countMismatch {fields got : Record} {a b : Nat} :
    Discrepancy.countMismatch a b ∈ diff fields got ↔
      fields.length ≠ got.length ∧ a = fields.length ∧ b = got.length := by
  rw [mem_diff]
  constructor
  · rintro (⟨hne, heq⟩ | h | h)
    · cases heq; exact ⟨hne, rfl, rfl⟩
    · obtain ⟨k, m0, _, hd⟩ := mem_diffFields.mp h
      exact absurd hd not_mem_diffFieldPart_countMismatch
    · obtain ⟨k, m1, _, _, hd⟩ := mem_diffExtra.mp h
      exact absurd hd (by simp)
  · rintro ⟨hne, rfl, rfl⟩
    exact Or.inl ⟨hne, rfl⟩

theorem mem_diff_fieldMissing {fields got : Record} {k : String} :
    Discrepancy.fieldMissing k ∈ diff fields got ↔
      (∃ m0, (k, m0) ∈ fields) ∧ lookupRec got k = none := by
  rw [mem_diff]
  constructor
  · rintro (⟨_, heq⟩ | h | h)
    · exact absurd heq (by simp)
    · obtain ⟨k0, m0, hmem, hd⟩ := mem_diffFields.mp h
      obtain ⟨rfl, hnone⟩ := mem_diffFieldPart_fieldMissing.mp hd
      exact ⟨⟨m0, hmem⟩, hnone⟩
    · obtain ⟨k0, m1, _, _, hd⟩ := mem_diffExtra.mp h
      exact absurd hd (by simp)
  · rintro ⟨⟨m0, hmem⟩, hnone⟩
    exact Or.inr (Or.inl (mem_diffFields.mpr
      ⟨k, m0, hmem, mem_diffFieldPart_fieldMissing.mpr ⟨rfl, hnone⟩⟩))

theorem mem_diff_valueMissing {fields got : Record} {k v : String} :
    Discrepancy.valueMissing k v ∈ diff fields got ↔
      ∃ m0 m1, (k, m0) ∈ fields ∧ lookupRec got k = some m1 ∧
        v ∈ m0 ∧ v ∉ m1 := by
  rw [mem_diff]
  constructor
  · rintro (⟨_, heq⟩ | h | h)
    · exact absurd heq (by simp)
    · obtain ⟨k0, m0, hmem, hd⟩ := mem_diffFields.mp h
      obtain ⟨rfl, m1, hm1, hv, hnot⟩ := mem_diffFieldPart_valueMissing.mp hd
      exact ⟨m0, m1, hmem, hm1, hv, hnot⟩
    · obtain ⟨k0, m1, _, _, hd⟩ := mem_diffExtra.mp h
      exact absurd hd (by simp)
  · rintro ⟨m0, m1, hmem, hm1, hv, hnot⟩
    exact Or.inr (Or.inl (mem_diffFields.mpr
      ⟨k, m0, hmem, mem_diffFieldPart_valueMissing.mpr ⟨rfl, m1, hm1, hv, hnot⟩⟩))

theorem mem_diff_extraValue {fields got : Record} {k v : String} :
    Discrepancy.extraValue k v ∈ diff fields got ↔
      ∃ m0 m1, (k, m0) ∈ fields ∧ lookupRec got k = some m1 ∧
        v ∈ m1 ∧ v ∉ m0 := by
  rw [mem_diff]
  constructor
  · rintro (⟨_, heq⟩ | h | h)
    · exact absurd heq (by simp)
    · obtain ⟨k0, m0, hmem, hd⟩ := mem_diffFields.mp h
      obtain ⟨rfl, m1, hm1, hv, hnot⟩ := mem_diffFieldPart_extraValue.mp hd
      exact ⟨m0, m1, hmem, hm1, hv, hnot⟩
    · obtain ⟨k0, m1, _, _, hd⟩ := mem_diffExtra.mp h
      exact absurd hd (by simp)
  · rintro ⟨m0, m1, hmem, hm1, hv, hnot⟩
    exact Or.inr (Or.inl (mem_diffFields.mpr
      ⟨k, m0, hmem, mem_diffFieldPart_extraValue.mpr ⟨rfl, m1, hm1, hv, hnot⟩⟩))

theorem mem_diff_extraField {fields got : Record} {k s : String} :
    Discrepancy.extraField k s ∈ diff fields got ↔
      ∃ m1, (k, m1) ∈ got ∧ lookupRec fields k = none ∧ s = keysJoin m1 := by
  rw [mem_diff]
  constructor
  · rintro (⟨_, heq⟩ | h | h)
    · exact absurd heq (by simp)
    · obtain ⟨k0, m0, _, hd⟩ := mem_diffFields.mp h
      exact absurd hd not_mem_diffFieldPart_extraField
    · obtain ⟨k0, m1, hmem, hnone, hd⟩ := mem_diffExtra.mp h
      obtain ⟨rfl, rfl⟩ : k = k0 ∧ s = keysJoin m1 := by
        cases hd; exact ⟨rfl, rfl⟩
      exact ⟨m1, hmem, hnone, rfl⟩
  · rintro ⟨m1, hmem, hnone, rfl⟩
    exact Or.inr (Or.inr (mem_diffExtra.mpr ⟨k, m1, hmem, hnone, rfl⟩))

end WW

namespace WW

/-- C2.  A count-mismatch line is emitted iff the numbers of distinct field
names differ, it carries exactly those two counts, and emitting it does not
short-circuit: the per-field and extra-field comparisons follow it in the
output. -/
theorem C2_count_mismatch (e o : Record) (_he : RecordWF e) (_ho : RecordWF o) :
    (∀ a b, Discrepancy.countMismatch a b ∈ diff e o ↔
      (e.length ≠ o.length ∧ a = e.length ∧ b = o.length)) ∧
    ∃ pre, diff e o = pre ++ (diffFields e o ++ diffExtra e o) := by
  refine ⟨fun a b => mem_diff_countMismatch, ?_⟩
  refine ⟨if e.length ≠ o.length then
    [Discrepancy.countMismatch e.length o.length] else [], ?_⟩
  unfold diff
  rw [List.append_assoc]

/-- Witness for C2 at concrete records with 1 and 0 fields. -/
theorem C2_witness :
    Discrepancy.countMismatch 1 0 ∈ diff [("Domain Name", ["example.com"])] [] :=
  ((C2_count_mismatch [("Domain Name", ["example.com"])] []
    (by decide) (by decide)).1 1 0).mpr (by decide)

/-- C3.  Comparing a record against itself yields no discrepancy at all,
and hence no mail is sent for it. -/
theorem C3_diff_self (r : Record) (hwf : RecordWF r) :
    diff r r = [] ∧
    ∀ sender zone date rcpt,
      sendReport sender zone (reportBody (diff r r)) rcpt date = none := by
  refine and_iff_left_of_imp ?_ |>.mpr ?_
  · intro h sender zone date rcpt
    rw [h]
    rfl
  unfold diff
  rw [if_neg (by simp)]
  have hfil : ∀ m : List String, m.filter (fun v => decide (v ∉ m)) = [] :=
    fun m => List.filter_eq_nil_iff.mpr (fun a ha => by simp [ha])
  have h1 : diffFields r r = [] := by
    rw [diffFields_eq]
    apply List.flatten_eq_nil_iff.mpr
    intro l hl
    obtain ⟨p, hp, rfl⟩ := List.mem_map.mp hl
    unfold diffFieldPart
    rw [mem_lookupRec hwf (by simpa using hp)]
    show (p.2.filter (fun v => decide (v ∉ p.2))).map (Discrepancy.valueMissing p.1) ++
      (p.2.filter (fun v => decide (v ∉ p.2))).map (Discrepancy.extraValue p.1) = []
    rw [hfil p.2]
    rfl
  have h2 : diffExtra r r = [] := by
    rw [diffExtra_eq]
    have hf : r.filter (fun p => (lookupRec r p.1).isNone) = [] :=
      List.filter_eq_nil_iff.mpr (fun p hp => by
        rw [mem_lookupRec hwf (by simpa using hp)]
        simp)
    rw [hf]
    rfl
  rw [h1, h2]
  rfl

/-- Witness for C3: the record parsed from the Scenario 1 text, compared
against itself. -/
theorem C3_witness :
    diff (split ("Registrant Name: Alice\nRegistrant Email: alice@example.com\n").data)
         (split ("Registrant Name: Alice\nRegistrant Email: alice@example.com\n").data)
      = [] :=
  (C3_diff_self _ (by decide)).1

/-- C4.  For a field name present in both records, a value of the expected
set absent from the observed set is reported as `expected value missing`,
and a value of the observed set absent from the expected set as
`extra value` — and nothing else produces those lines; on the Scenario 2
records the report is exactly those two lines, with no count mismatch. -/
theorem C4_per_field_value_diffs :
    (∀ e o k m0 m1 v, RecordWF e →
      lookupRec e k = some m0 → lookupRec o k = some m1 →
      ((Discrepancy.valueMissing k v ∈ diff e o ↔ (v ∈ m0 ∧ v ∉ m1)) ∧
       (Discrepancy.extraValue k v ∈ diff e o ↔ (v ∈ m1 ∧ v ∉ m0)))) ∧
    diff [("Registrant Name", ["Alice"])] [("Registrant Name", ["Bob"])] =
      [Discrepancy.valueMissing ("Registrant Name") ("Alice"),
       Discrepancy.extraValue ("Registrant Name") ("Bob")] := by
  constructor
  · intro e o k m0 m1 v hwf h0 h1
    constructor
    · rw [mem_diff_valueMissing]
      constructor
      · rintro ⟨m0', m1', hmem, hm1, hv, hnot⟩
        have heq0 : m0' = m0 := by
          have := mem_lookupRec hwf hmem
          rw [h0] at this
          exact (Option.some.injEq _ _ ▸ this).symm
        have heq1 : m1' = m1 := by
          rw [h1] at hm1
          exact (Option.some.injEq _ _ ▸ hm1).symm
        exact ⟨heq0 ▸ hv, heq1 ▸ hnot⟩
      · rintro ⟨hv, hnot⟩
        exact ⟨m0, m1, lookupRec_mem h0, h1, hv, hnot⟩
    · rw [mem_diff_extraValue]
      constructor
      · rintro ⟨m0', m1', hmem, hm1, hv, hnot⟩
        have heq0 : m0' = m0 := by
          have := mem_lookupRec hwf hmem
          rw [h0] at this
          exact (Option.some.injEq _ _ ▸ this).symm
        have heq1 : m1' = m1 := by
          rw [h1] at hm1
          exact (Option.some.injEq _ _ ▸ hm1).symm
        exact ⟨heq1 ▸ hv, heq0 ▸ hnot⟩
      · rintro ⟨hv, hnot⟩
        exact ⟨m0, m1, lookupRec_mem h0, h1, hv, hnot⟩
  · decide

/-- Witness for C4 on the Scenario 2 records. -/
theorem C4_witness :
    Discrepancy.valueMissing ("Registrant Name") ("Alice") ∈
      diff [("Registrant Name", ["Alice"])] [("Registrant Name", ["Bob"])] :=
  ((C4_per_field_value_diffs.1 [("Registrant Name", ["Alice"])]
      [("Registrant Name", ["Bob"])] ("Registrant Name") ["Alice"] ["Bob"] ("Alice")
      (by decide) (by decide) (by decide)).1).mpr (by decide)

/-- C5.  Swapping the two records swaps labels but not content: a value
reported `expected value missing` by `diff a b` is reported `extra value`
by `diff b a` for the same field and value, and a `required field missing`
line of `diff a b` corresponds to an `extra field` line of `diff b a` for
the same field. -/
theorem C5_antisym (a b : Record) (ha : RecordWF a) (hb : RecordWF b) :
    (∀ k v, Discrepancy.valueMissing k v ∈ diff a b ↔
            Discrepancy.extraValue k v ∈ diff b a) ∧
    (∀ k, Discrepancy.fieldMissing k ∈ diff a b ↔
          ∃ s, Discrepancy.extraField k s ∈ diff b a) := by
  constructor
  · intro k v
    rw [mem_diff_valueMissing, mem_diff_extraValue]
    constructor
    · rintro ⟨m0, m1, hmem, hm1, hv, hnot⟩
      exact ⟨m1, m0, lookupRec_mem hm1, mem_lookupRec ha hmem, hv, hnot⟩
    · rintro ⟨m0, m1, hmem, hm1, hv, hnot⟩
      exact ⟨m1, m0, lookupRec_mem hm1, mem_lookupRec hb hmem, hv, hnot⟩
  · intro k
    rw [mem_diff_fieldMissing]
    constructor
    · rintro ⟨⟨m0, hmem⟩, hnone⟩
      exact ⟨keysJoin m0, mem_diff_extraField.mpr ⟨m0, hmem, hnone, rfl⟩⟩
    · rintro ⟨s, hs⟩
      obtain ⟨m1, hmem, hnone, rfl⟩ := mem_diff_extraField.mp hs
      exact ⟨⟨m1, hmem⟩, hnone⟩

/-- Witness for C5 at concrete records differing in one value. -/
theorem C5_witness :
    Discrepancy.valueMissing ("Status") ("ok") ∈ diff [("Status", ["ok"])] [("Status", ["locked"])] ↔
      Discrepancy.extraValue ("Status") ("ok") ∈ diff [("Status", ["locked"])] [("Status", ["ok"])] :=
  (C5_antisym [("Status", ["ok"])] [("Status", ["locked"])]
    (by decide) (by decide)).1 ("Status") ("ok")

end WW

namespace WW

/-! ## The extra-field lines of the report -/

theorem diffExtra_cons (fields : Record) (p : String × List String)
    (rest : Record) :
    diffExtra fields (p :: rest) =
      if (lookupRec fields p.1).isNone then
        Discrepancy.extraField p.1 (keysJoin p.2) :: diffExtra fields rest
      else diffExtra fields rest := rfl

theorem diffExtra_count_zero (fields : Record) (k s : String) :
    ∀ got : Record, k ∉ got.map Prod.fst →
      (diffExtra fields got).count (Discrepancy.extraField k s) = 0 := by
  intro got hk
  apply List.count_eq_zero.mpr
  intro hmem
  obtain ⟨k0, m1, hm1, _, heq⟩ := mem_diffExtra.mp hmem
  obtain ⟨rfl, -⟩ : k = k0 ∧ s = keysJoin m1 := by
    cases heq
    exact ⟨rfl, rfl⟩
  exact hk (List.mem_map.mpr ⟨(k, m1), hm1, rfl⟩)

theorem diffExtra_count_one (fields : Record) (k : String) (m1 : List String) :
    ∀ got : Record, RecordWF got → lookupRec fields k = none →
      lookupRec got k = some m1 →
      (diffExtra fields got).count (Discrepancy.extraField k (keysJoin m1))
        = 1 := by
  intro got
  induction got with
  | nil => intro _ _ h; exact absurd h (by simp [lookupRec])
  | cons p rest ih =>
    intro hwf hf hg
    obtain ⟨k', m'⟩ := p
    rw [diffExtra_cons]
    by_cases hk : k' = k
    · subst hk
      obtain rfl : m' = m1 := by
        simp only [lookupRec, if_true] at hg
        cases hg
        rfl
      rw [if_pos (by simp [hf])]
      rw [List.count_cons_self]
      have hnotin : k' ∉ rest.map Prod.fst := (List.nodup_cons.mp hwf).1
      rw [diffExtra_count_zero fields k' (keysJoin m') rest hnotin]
    · have hg' : lookupRec rest k = some m1 := by
        simpa only [lookupRec, hk, if_false] using hg
      have hcount := ih (List.nodup_cons.mp hwf).2 hf hg'
      by_cases hn : (lookupRec fields k').isNone
      · rw [if_pos hn, List.count_cons_of_ne
          (fun h => by injection h with h1 h2; exact hk h1.symm), hcount]
      · rw [if_neg hn, hcount]

theorem keysJoin_suffix :
    ∀ (vs : List String) (init : String),
      ∃ s, vs.foldl (fun acc x => acc ++ x ++ " ") init = init ++ s := by
  intro vs
  induction vs with
  | nil => exact fun init => ⟨"", (String.append_empty init).symm⟩
  | cons w ws ih =>
    intro init
    obtain ⟨s, hs⟩ := ih (init ++ w ++ " ")
    refine ⟨w ++ " " ++ s, ?_⟩
    rw [show (init ++ w ++ " ") ++ s = init ++ (w ++ " " ++ s) by
      rw [String.append_assoc, String.append_assoc, String.append_assoc]] at hs
    exact hs

theorem keysJoin_decomp_aux :
    ∀ (vs : List String) (v : String), v ∈ vs → ∀ init : String,
      ∃ p q, vs.foldl (fun acc x => acc ++ x ++ " ") init
        = p ++ (v ++ " ") ++ q := by
  intro vs
  induction vs with
  | nil => intro v hv; simp at hv
  | cons w ws ih =>
    intro v hv init
    rcases List.mem_cons.mp hv with rfl | hv'
    · obtain ⟨s, hs⟩ := keysJoin_suffix ws (init ++ v ++ " ")
      refine ⟨init, s, ?_⟩
      show ws.foldl (fun acc x => acc ++ x ++ " ") (init ++ v ++ " ")
        = init ++ (v ++ " ") ++ s
      rw [hs, String.append_assoc init v (" ")]
    · exact ih v hv' (init ++ w ++ " ")

/-- Every value of the set appears in the space-joined `keys` string, each
followed by a space. -/
theorem keysJoin_decomp {vs : List String} {v : String} (h : v ∈ vs) :
    ∃ p q, keysJoin vs = p ++ (v ++ " ") ++ q :=
  keysJoin_decomp_aux vs v h ("")

/-- C8.  A field present in the observed record only is reported by exactly
one `extra field` line, whose text joins all of that field's values, each
followed by a space. -/
theorem C8_extra_field (e o : Record) (k : String) (m1 : List String)
    (ho : RecordWF o) (hf : lookupRec e k = none)
    (hg : lookupRec o k = some m1) :
    (diff e o).count (Discrepancy.extraField k (keysJoin m1)) = 1 ∧
    (∀ s, Discrepancy.extraField k s ∈ diff e o ↔ s = keysJoin m1) ∧
    (∀ v ∈ m1, ∃ p q, keysJoin m1 = p ++ (v ++ " ") ++ q) := by
  refine ⟨?_, ?_, fun v hv => keysJoin_decomp hv⟩
  · unfold diff
    rw [List.count_append, List.count_append]
    have hc1 : (if e.length ≠ o.length then
        [Discrepancy.countMismatch e.length o.length]
      else []).count (Discrepancy.extraField k (keysJoin m1)) = 0 := by
      by_cases h : e.length ≠ o.length <;> simp [h]
    have hc2 : (diffFields e o).count (Discrepancy.extraField k (keysJoin m1))
        = 0 := by
      apply List.count_eq_zero.mpr
      intro hmem
      obtain ⟨k0, m0, _, hd⟩ := mem_diffFields.mp hmem
      exact not_mem_diffFieldPart_extraField hd
    rw [hc1, hc2, diffExtra_count_one e k m1 o ho hf hg]
  · intro s
    constructor
    · intro hmem
      obtain ⟨m1', hm1, _, rfl⟩ := mem_diff_extraField.mp hmem
      obtain rfl : m1' = m1 := by
        have := mem_lookupRec ho hm1
        rw [hg] at this
        exact (Option.some.injEq _ _ ▸ this).symm
      rfl
    · rintro rfl
      exact mem_diff_extraField.mpr ⟨m1, lookupRec_mem hg, hf, rfl⟩

/-- Witness for C8: one extra field with two values. -/
theorem C8_witness :
    (diff [] [("Name Server", ["ns1.example.com", "ns2.example.com"])]).count
      (Discrepancy.extraField ("Name Server")
        (keysJoin ["ns1.example.com", "ns2.example.com"])) = 1 :=
  (C8_extra_field [] [("Name Server", ["ns1.example.com", "ns2.example.com"])]
    ("Name Server") ["ns1.example.com", "ns2.example.com"]
    (by decide) (by decide) (by decide)).1

end WW

namespace WW

/-! ## Set semantics of the parser (C6, C7, C10) -/

theorem insertVal_idem (r : Record) (k v : String) :
    insertVal (insertVal r k v) k v = insertVal r k v := by
  induction r with
  | nil => simp [insertVal]
  | cons p rest ih =>
    obtain ⟨k', vs⟩ := p
    by_cases hk : k' = k
    · subst hk
      by_cases hv : v ∈ vs
      · simp [insertVal, hv]
      · simp [insertVal, hv]
    · simp [insertVal, hk, ih]

/-- C6.  Two lines with the same label and different values accumulate a
two-element value set under one field name; repeating an identical value
collapses to a single entry (inserting a present value is a no-op). -/
theorem C6_set_semantics :
    split ("Name Servers: ns1.example.com\nName Servers: ns2.example.com").data
      = [("Name Servers", ["ns1.example.com", "ns2.example.com"])] ∧
    split ("Name Servers: ns1.example.com\nName Servers: ns1.example.com").data
      = [("Name Servers", ["ns1.example.com"])] ∧
    ∀ (r : Record) (k v : String),
      insertVal (insertVal r k v) k v = insertVal r k v :=
  ⟨by decide, by decide, insertVal_idem⟩

theorem insertVal_ne_nil (r : Record) (k v : String) :
    insertVal r k v ≠ [] := by
  cases r with
  | nil => simp [insertVal]
  | cons p rest =>
    obtain ⟨k', vs⟩ := p
    by_cases hk : k' = k <;> simp [insertVal, hk]

theorem splitFold_cons (fields : Record) (l : List Char)
    (ls : List (List Char)) :
    splitFold fields (l :: ls) =
      match lineField l with
      | none => splitFold fields ls
      | some (k, v) =>
        splitFold (insertVal fields (String.mk k) (String.mk v)) ls := rfl

theorem splitFold_ne_nil :
    ∀ (ls : List (List Char)) (acc : Record), acc ≠ [] →
      splitFold acc ls ≠ [] := by
  intro ls
  induction ls with
  | nil => exact fun acc h => h
  | cons l ls ih =>
    intro acc hacc
    rw [splitFold_cons]
    cases hl : lineField l with
    | none => exact ih acc hacc
    | some kv =>
      obtain ⟨k, v⟩ := kv
      exact ih _ (insertVal_ne_nil acc (String.mk k) (String.mk v))

theorem splitFold_eq_nil_iff :
    ∀ (ls : List (List Char)) (acc : Record),
      splitFold acc ls = [] ↔ (acc = [] ∧ ∀ l ∈ ls, lineField l = none) := by
  intro ls
  induction ls with
  | nil => intro acc; simp [splitFold]
  | cons l ls ih =>
    intro acc
    rw [splitFold_cons]
    cases hl : lineField l with
    | none =>
      rw [ih acc]
      constructor
      · rintro ⟨ha, hall⟩
        refine ⟨ha, fun l' hl' => ?_⟩
        rcases List.mem_cons.mp hl' with rfl | h
        · exact hl
        · exact hall _ h
      · rintro ⟨ha, hall⟩
        exact ⟨ha, fun l' h => hall _ (List.mem_cons_of_mem _ h)⟩
    | some kv =>
      obtain ⟨k, v⟩ := kv
      constructor
      · intro h
        exact absurd h
          (splitFold_ne_nil ls _ (insertVal_ne_nil acc (String.mk k) (String.mk v)))
      · rintro ⟨-, hall⟩
        exact absurd (hall l (by simp)) (by simp [hl])

/-- C7.  `split` is total by construction (it is a Lean function into
`Record`), and it returns the empty record exactly when no line of the
input matches the field pattern. -/
theorem C7_parse_total (b : List Char) :
    split b = [] ↔ ∀ l ∈ splitLines b, lineField l = none := by
  unfold split
  rw [splitFold_eq_nil_iff]
  simp

theorem goTrimSpace_all_space {rest : List Char}
    (hr : ∀ c ∈ rest, goIsSpace c = true) : goTrimSpace rest = [] := by
  unfold goTrimSpace
  rw [List.dropWhile_eq_nil_iff.mpr (fun x hx => hr x hx)]
  rfl

/-- C10.  A line made of a matching label, a colon and only whitespace
after it is parsed as a field whose value set holds the empty string, so
the field counts as present with one value. -/
theorem C10_empty_value (p rest : List Char) (hp : labelMatch p = true)
    (hr : ∀ c ∈ rest, goIsSpace c = true) :
    lineField (p ++ ':' :: rest) = some (p, []) ∧
    split ("Registrant Name:").data = [("Registrant Name", [""])] ∧
    split ("Registrant Name:   ").data = [("Registrant Name", [""])] := by
  refine ⟨?_, by decide, by decide⟩
  have hcl : CodeLabel p := (labelMatch_iff_codeLabel p).mp hp
  unfold lineField
  rw [splitFirstColon_append hcl.no_colon]
  show (if labelMatch p = true then some (p, goTrimSpace rest) else none)
    = some (p, [])
  rw [goTrimSpace_all_space hr]
  simp [hp]

/-- Witness for C10: the line `Registrant Name:` with nothing after the
colon. -/
theorem C10_witness :
    lineField ("Registrant Name".data ++ ':' :: []) =
      some ("Registrant Name".data, []) :=
  (C10_empty_value ("Registrant Name").data [] (by decide) (by simp)).1

end WW

namespace WW

/-! ## Shape of the report body and the mail guard (C9) -/

theorem reportBody_suffix :
    ∀ (ds : List Discrepancy) (init : String),
      ∃ s, ds.foldl (fun m d => m ++ d.text ++ "\n") init = init ++ s := by
  intro ds
  induction ds with
  | nil => exact fun init => ⟨"", (String.append_empty init).symm⟩
  | cons d ds ih =>
    intro init
    obtain ⟨s, hs⟩ := ih (init ++ d.text ++ "\n")
    refine ⟨d.text ++ "\n" ++ s, ?_⟩
    rw [show (init ++ d.text ++ "\n") ++ s = init ++ (d.text ++ "\n" ++ s) by
      rw [String.append_assoc, String.append_assoc, String.append_assoc]] at hs
    exact hs

theorem reportBody_ne_empty {ds : List Discrepancy} (h : ds ≠ []) :
    reportBody ds ≠ "" := by
  cases ds with
  | nil => exact absurd rfl h
  | cons d ds' =>
    intro hempty
    obtain ⟨s, hs⟩ := reportBody_suffix ds' ("" ++ d.text ++ "\n")
    have h2 : reportBody (d :: ds') = ("" ++ d.text ++ "\n") ++ s := hs
    rw [hempty] at h2
    have h3 := congrArg String.length h2
    rw [String.length_append, String.length_append, String.length_append] at h3
    rw [show ("\n" : String).length = 1 from rfl] at h3
    omega

theorem reportBody_eq_empty_iff {ds : List Discrepancy} :
    reportBody ds = "" ↔ ds = [] := by
  constructor
  · intro h
    by_contra hne
    exact reportBody_ne_empty hne h
  · rintro rfl
    rfl

theorem reportBody_line_aux :
    ∀ (ds : List Discrepancy) (d : Discrepancy), d ∈ ds → ∀ init : String,
      ∃ p q, ds.foldl (fun m d => m ++ d.text ++ "\n") init
          = p ++ (d.text ++ "\n") ++ q ∧
        (p = init ∨ ∃ p', p = p' ++ "\n") := by
  intro ds
  induction ds with
  | nil => intro d hd; simp at hd
  | cons w ws ih =>
    intro d hd init
    rcases List.mem_cons.mp hd with rfl | hd'
    · obtain ⟨s, hs⟩ := reportBody_suffix ws (init ++ d.text ++ "\n")
      refine ⟨init, s, ?_, Or.inl rfl⟩
      show ws.foldl (fun m x => m ++ x.text ++ "\n") (init ++ d.text ++ "\n")
        = init ++ (d.text ++ "\n") ++ s
      rw [hs, String.append_assoc init d.text ("\n")]
    · obtain ⟨p, q, hpq, hp⟩ := ih d hd' (init ++ w.text ++ "\n")
      refine ⟨p, q, hpq, ?_⟩
      rcases hp with rfl | hp
      · exact Or.inr ⟨init ++ w.text, rfl⟩
      · exact Or.inr hp

/-- C9.  No mail is sent exactly when the discrepancy sequence is empty;
otherwise `smtp.SendMail` is invoked once, with a message that carries
every discrepancy's text on a line of its own and a Subject line naming
the zone. -/
theorem C9_mail_guard (sender zone date : String) (rcpt : List String)
    (ds : List Discrepancy) :
    (sendReport sender zone (reportBody ds) rcpt date = none ↔ ds = []) ∧
    (ds ≠ [] → sendCount (reportBody ds) = 1) ∧
    (∀ m, sendReport sender zone (reportBody ds) rcpt date = some m →
      (∀ d ∈ ds, ∃ p q : List Char,
        m.data = p ++ ("\n" ++ d.text ++ "\n").data ++ q) ∧
      (∃ p q : List Char,
        m.data = p ++ ("Subject: WARNING! Change in " ++ zone ++
          " whois record").data ++ q)) := by
  refine ⟨?_, ?_, ?_⟩
  · constructor
    · intro h
      by_contra hne
      unfold sendReport at h
      rw [if_neg (reportBody_ne_empty hne)] at h
      exact Option.noConfusion h
    · rintro rfl
      rfl
  · intro hne
    unfold sendCount
    rw [if_neg (reportBody_ne_empty hne)]
  · intro m hm
    have hne : ¬ reportBody ds = "" := by
      intro h
      unfold sendReport at hm
      rw [if_pos h] at hm
      exact Option.noConfusion hm
    have hmeq : m = mailHeader sender (String.intercalate (", ") rcpt) date zone
        ++ reportBody ds := by
      unfold sendReport at hm
      rw [if_neg hne] at hm
      exact (Option.some.injEq _ _ ▸ hm).symm
    constructor
    · intro d hd
      obtain ⟨p, q, hpq, hp⟩ := reportBody_line_aux ds d hd ("")
      have hbody : reportBody ds = p ++ (d.text ++ "\n") ++ q := hpq
      rcases hp with rfl | ⟨p', rfl⟩
      · refine ⟨("From: " ++ sender ++ "\nTo: " ++
          String.intercalate (", ") rcpt ++ "\nDate: " ++ date ++
          "\nSubject: WARNING! Change in " ++ zone ++
          " whois record\n").data, q.data, ?_⟩
        rw [hmeq, hbody]
        unfold mailHeader
        simp [List.append_assoc]
      · refine ⟨(mailHeader sender (String.intercalate (", ") rcpt) date zone).data
          ++ p'.data, q.data, ?_⟩
        rw [hmeq, hbody]
        simp only [String.data_append]
        simp [List.append_assoc]
    · refine ⟨("From: " ++ sender ++ "\nTo: " ++
        String.intercalate (", ") rcpt ++ "\nDate: " ++ date ++ "\n").data,
        ("\n\n" ++ reportBody ds).data, ?_⟩
      rw [hmeq]
      unfold mailHeader
      simp [List.append_assoc]

/-- Witness for C9: a one-line report sends exactly one mail. -/
theorem C9_witness :
    sendCount (reportBody [Discrepancy.fieldMissing ("Registrant Name")]) = 1 :=
  (C9_mail_guard ("watcher@example.com") ("example.com") ("01 Jan 14 00:00 +0000")
    ["alert@example.com"] [Discrepancy.fieldMissing ("Registrant Name")]).2.1
    (by simp)

end WW
